import Mathlib

/-!
Verification of the AirForge core: the voxel grid engine
(`src/voxel_engine.py`), the gesture state machine
(`src/gesture_detector.py`) and the motion sanity filter
(`src/hand_tracker.py`), shallowly embedded in Lean 4.

Python `dict` (insertion ordered, unique keys) is embedded as an
insertion-ordered association list; `dict[k] = v` replaces the value at
the first (only) occurrence of `k` in place or appends a fresh entry at
the end, `del dict[k]` removes that entry, matching CPython semantics.
Python floats are embedded as exact rationals.
-/

set_option autoImplicit false

namespace AirForge

/-- Integer grid coordinate `(x, y, z)`. -/
abbrev Pos := Int × Int × Int

/-- RGB color triple. -/
abbrev Color := Int × Int × Int

/-- `Voxel` dataclass: a grid cell's payload, a color. -/
structure Voxel where
  color : Color
deriving DecidableEq, Repr

/-- Insertion-ordered association list embedding a Python `dict`. -/
abbrev VoxelMap := List (Pos × Voxel)

/-- `dict.get(p)` / `dict[p]`: value at the first entry with key `p`. -/
def dictGet (m : VoxelMap) (p : Pos) : Option Voxel :=
  match m with
  | [] => none
  | (q, v) :: t => if q = p then some v else dictGet t p

/-- `dict[p] = v`: replace the value at the first entry with key `p`
(keeping its position), or append a fresh entry at the end. -/
def dictInsert (m : VoxelMap) (p : Pos) (v : Voxel) : VoxelMap :=
  match m with
  | [] => [(p, v)]
  | (q, w) :: t => if q = p then (q, v) :: t else (q, w) :: dictInsert t p v

/-- `del dict[p]`: remove the first entry with key `p`, if any. -/
def dictErase (m : VoxelMap) (p : Pos) : VoxelMap :=
  match m with
  | [] => []
  | (q, w) :: t => if q = p then t else (q, w) :: dictErase t p

/-- One face record emitted by `get_visible_faces`
(`{"pos": ..., "face": ..., "color": ...}`). -/
structure Face where
  pos : Pos
  face : String
  color : Color
deriving DecidableEq, Repr

/-- The `directions` list of `get_visible_faces`, in source order. -/
def directions : List (Pos × String) :=
  [((1, 0, 0), "right"),
   ((-1, 0, 0), "left"),
   ((0, 1, 0), "top"),
   ((0, -1, 0), "bottom"),
   ((0, 0, 1), "front"),
   ((0, 0, -1), "back")]

/-- `has_voxel`: whether a voxel exists at the position. -/
def has_voxel (m : VoxelMap) (p : Pos) : Bool :=
  (dictGet m p).isSome

/-- Offset a position by a direction vector. -/
def offsetPos (p d : Pos) : Pos :=
  (p.1 + d.1, p.2.1 + d.2.1, p.2.2 + d.2.2)

/-- The loop body of `get_visible_faces` for one voxel entry: emit a face
record for each direction whose neighboring cell is unoccupied. -/
def facesForCell (m : VoxelMap) (p : Pos) (v : Voxel) : List Face :=
  directions.filterMap (fun dn =>
    if has_voxel m (offsetPos p dn.1) then none
    else some { pos := p, face := dn.2, color := v.color })

/-- The full recomputation performed by `get_visible_faces` on a cache
miss: iterate `voxels.items()` in insertion order, directions inner. -/
def computeFaces (m : VoxelMap) : List Face :=
  m.flatMap (fun pv => facesForCell m pv.1 pv.2)

/-- `VoxelEngine.COLORS` palette. -/
def COLORS : List Color :=
  [(255, 100, 50), (50, 150, 255), (50, 255, 100), (255, 50, 150),
   (255, 255, 50), (150, 50, 255), (255, 255, 255), (100, 100, 100)]

/-- Undo record action tag (`"place"` or `"remove"`). -/
inductive UndoAction where
  | place
  | remove
deriving DecidableEq, Repr

/-- One entry of `undo_stack`: `(action, pos, old_voxel_or_None)`. -/
structure UndoRecord where
  action : UndoAction
  pos : Pos
  voxel : Option Voxel
deriving DecidableEq, Repr

/-- `self.max_undo = 50`. -/
def max_undo : Nat := 50

/-- The mutable state of a `VoxelEngine` instance. -/
structure Engine where
  grid_size : Int
  voxels : VoxelMap
  current_color_index : Nat
  undo_stack : List UndoRecord
  cache : Option (List Face)
deriving DecidableEq, Repr

/-- `VoxelEngine.__init__(grid_size)`. -/
def Engine.init (grid_size : Int) : Engine :=
  { grid_size := grid_size
    voxels := []
    current_color_index := 0
    undo_stack := []
    cache := none }

/-- `current_color` property: `COLORS[current_color_index]`. -/
def Engine.current_color (e : Engine) : Color :=
  COLORS.getD e.current_color_index (0, 0, 0)

/-- `is_valid_position`: `0 <= x < grid_size` on each axis. -/
def Engine.is_valid_position (e : Engine) (x y z : Int) : Bool :=
  decide (0 ≤ x ∧ x < e.grid_size ∧ 0 ≤ y ∧ y < e.grid_size ∧
          0 ≤ z ∧ z < e.grid_size)

/-- `_push_undo`: append, then `pop(0)` if the stack exceeds `max_undo`. -/
def push_undo (st : List UndoRecord) (r : UndoRecord) : List UndoRecord :=
  if (st ++ [r]).length > max_undo then (st ++ [r]).drop 1 else st ++ [r]

/-- `place_voxel(x, y, z, color)`; returns the updated engine and the
boolean result. A `none` color stands for Python's `None` default and
selects the current color. -/
def Engine.place_voxel (e : Engine) (x y z : Int) (color : Option Color) :
    Engine × Bool :=
  if e.is_valid_position x y z then
    let pos : Pos := (x, y, z)
    let c := color.getD e.current_color
    let old := dictGet e.voxels pos
    ({ e with
        voxels := dictInsert e.voxels pos { color := c }
        undo_stack := push_undo e.undo_stack
          { action := .place, pos := pos, voxel := old }
        cache := none }, true)
  else
    (e, false)

/-- `remove_voxel(x, y, z)`. -/
def Engine.remove_voxel (e : Engine) (x y z : Int) : Engine × Bool :=
  let pos : Pos := (x, y, z)
  match dictGet e.voxels pos with
  | none => (e, false)
  | some old =>
      ({ e with
          voxels := dictErase e.voxels pos
          undo_stack := push_undo e.undo_stack
            { action := .remove, pos := pos, voxel := some old }
          cache := none }, true)

/-- The voxel-map restoration performed for one popped undo record: a
"place" record with no prior voxel deletes the cell (if present), with a
prior voxel restores it; a "remove" record restores the removed voxel. -/
def undoVox (m : VoxelMap) (r : UndoRecord) : VoxelMap :=
  match r.action, r.voxel with
  | .place, none => if has_voxel m r.pos then dictErase m r.pos else m
  | .place, some v => dictInsert m r.pos v
  | .remove, some v => dictInsert m r.pos v
  | .remove, none => m

/-- `undo()`: pop the most recent record and reverse it. -/
def Engine.undo (e : Engine) : Engine × Bool :=
  match e.undo_stack.getLast? with
  | none => (e, false)
  | some r =>
      ({ e with
          voxels := undoVox e.voxels r
          undo_stack := e.undo_stack.dropLast
          cache := none }, true)

/-- `get_visible_faces()`: memoized read; fills the cache on a miss. -/
def Engine.get_visible_faces (e : Engine) : Engine × List Face :=
  match e.cache with
  | some fs => (e, fs)
  | none =>
      let fs := computeFaces e.voxels
      ({ e with cache := some fs }, fs)

/-- `clear()`: empties voxels and the undo stack, invalidates the cache. -/
def Engine.clear (e : Engine) : Engine :=
  { e with voxels := [], undo_stack := [], cache := none }

/-- The store operations a client can perform (the face-cache read is
included since it also writes the cache field). -/
inductive Op where
  | place (x y z : Int) (color : Option Color)
  | remove (x y z : Int)
  | undo
  | clear
  | getFaces
deriving DecidableEq, Repr

/-- Apply one operation to the engine state. -/
def applyOp (e : Engine) : Op → Engine
  | .place x y z c => (e.place_voxel x y z c).1
  | .remove x y z => (e.remove_voxel x y z).1
  | .undo => e.undo.1
  | .clear => e.clear
  | .getFaces => e.get_visible_faces.1

/-- Apply a sequence of operations, oldest first. -/
def applyOps (e : Engine) : List Op → Engine
  | [] => e
  | op :: rest => applyOps (applyOp e op) rest

/-- Cache coherence: the memoized faces, when present, are exactly the
fresh recomputation from current voxel content. -/
def cacheOK (e : Engine) : Prop :=
  e.cache = none ∨ e.cache = some (computeFaces e.voxels)

/-- Keys of the voxel dictionary, in insertion order. -/
def keys (m : VoxelMap) : List Pos :=
  m.map Prod.fst

/-- All positions of the invariant: voxel keys in bounds, keys unique,
and every undo record's coordinate in bounds (needed so that `undo` can
only restore in-bounds cells). -/
def storeInv (e : Engine) : Prop :=
  (∀ pv ∈ e.voxels, e.is_valid_position pv.1.1 pv.1.2.1 pv.1.2.2 = true) ∧
  (keys e.voxels).Nodup ∧
  (∀ r ∈ e.undo_stack, e.is_valid_position r.pos.1 r.pos.2.1 r.pos.2.2 = true)

/-- The place/remove operations of the C4 round-trip sequences. -/
inductive PROp where
  | place (x y z : Int) (color : Option Color)
  | remove (x y z : Int)
deriving DecidableEq, Repr

/-- Embed a place/remove operation into the full operation language. -/
def PROp.toOp : PROp → Op
  | .place x y z c => .place x y z c
  | .remove x y z => .remove x y z

def applyPROp (e : Engine) : PROp → Engine
  | .place x y z c => (e.place_voxel x y z c).1
  | .remove x y z => (e.remove_voxel x y z).1

def applyPROps (e : Engine) : List PROp → Engine
  | [] => e
  | op :: rest => applyPROps (applyPROp e op) rest

/-- Calling `undo()` n times in sequence. -/
def undoN : Engine → Nat → Engine
  | e, 0 => e
  | e, n + 1 => undoN e.undo.1 n

/-- Engine states equal on every field except possibly the internal
insertion order of the voxel dictionary (compared extensionally). -/
def eqvC (a b : Engine) : Prop :=
  a.grid_size = b.grid_size ∧
  a.current_color_index = b.current_color_index ∧
  a.undo_stack = b.undo_stack ∧
  a.cache = b.cache ∧
  ∀ p, dictGet a.voxels p = dictGet b.voxels p

/-- The voxel map of a filled k×k×k cube of occupied cells anchored at
`(a, b, c)`, every cell colored `v`. -/
def cubeList (a b c : Int) (k : Nat) (v : Voxel) : VoxelMap :=
  (List.range k).flatMap (fun i =>
    (List.range k).flatMap (fun j =>
      (List.range k).map (fun (l : Nat) =>
        ((a + (i : Int), b + (j : Int), c + (l : Int)), v))))

/-- Number of visible faces contributed along one axis by a cube cell
with axis offset `t` inside a cube of edge `k`. -/
def eN (k t : Nat) : Nat :=
  (if 1 ≤ t then 0 else 1) + (if t + 1 < k then 0 else 1)

/-- The gesture labels of `Gesture(Enum)`. -/
inductive Gest where
  | NONE
  | POINT
  | PINCH
  | GRAB
  | PALM
  | PEACE
deriving DecidableEq, Repr

/-- The state-machine states of `GestureDetector.state`. -/
inductive GState where
  | IDLE
  | HAND_PRESENT
  | PRE_PINCH
  | PINCHED
  | RELEASE
deriving DecidableEq, Repr

/-- One frame's gesture confidence scores (`_get_gesture_scores`). -/
structure Scores where
  pinch : ℚ
  palm : ℚ
  grab : ℚ
  peace : ℚ
deriving DecidableEq, Repr

/-- The persistent detector state mutated by `detect`. -/
structure DetectorState where
  state : GState
  last_gesture : Gest
  gesture_hold_frames : Nat
deriving DecidableEq, Repr

/-- `GestureDetector.__init__` state fields. -/
def DetectorState.init : DetectorState :=
  { state := .IDLE, last_gesture := .NONE, gesture_hold_frames := 0 }

/-- `self.min_hold_frames = 3`. -/
def min_hold_frames : Nat := 3

/-- The state-machine transition block of `detect` (steps 1–2): given
the state at entry and the frame's scores, the state after the block
and the raw `new_gesture` label produced this tick. After the
`IDLE → HAND_PRESENT` assignment the HAND_PRESENT block runs in the
same tick (it is a separate `if`, not an `elif`), so the updated state
is matched; the IDLE match arm below is unreachable. -/
def machineStep (st : GState) (sc : Scores) : GState × Gest :=
  let st1 := if st = .IDLE then .HAND_PRESENT else st
  match st1 with
  | .IDLE => (.HAND_PRESENT, .NONE)
  | .HAND_PRESENT =>
      if sc.pinch > 0.4 then (.PRE_PINCH, .NONE)
      else if sc.palm > 0.8 then (.HAND_PRESENT, .PALM)
      else if sc.grab > 0.8 then (.HAND_PRESENT, .GRAB)
      else if sc.peace > 0.8 then (.HAND_PRESENT, .PEACE)
      else (.HAND_PRESENT, .POINT)
  | .PRE_PINCH =>
      (if sc.pinch > 0.7 then .PINCHED
       else if sc.pinch < 0.3 then .HAND_PRESENT
       else .PRE_PINCH, .POINT)
  | .PINCHED =>
      if sc.pinch < 0.5 then (.RELEASE, .NONE)
      else (.PINCHED, .PINCH)
  | .RELEASE =>
      (if sc.pinch < 0.3 then .HAND_PRESENT else .RELEASE, .POINT)

/-- Steps 2–3 of `detect` for a present-hand tick: run the transition
block, update the hold counter and last label, then apply the PINCH
fast path and the debounce threshold. -/
def detectStep (d : DetectorState) (sc : Scores) : DetectorState × Gest :=
  let r := machineStep d.state sc
  let hold := if r.2 = d.last_gesture then d.gesture_hold_frames + 1 else 1
  let d1 : DetectorState :=
    { state := r.1, last_gesture := r.2, gesture_hold_frames := hold }
  if r.2 = .PINCH ∧ r.1 = .PINCHED then (d1, .PINCH)
  else if min_hold_frames ≤ hold then (d1, r.2)
  else (d1, .NONE)

/-- `detect(landmarks)`: a `none` input is the `landmarks is None`
reset path. (The `scale == 0` early return is dead code: the scale is
floored at 0.01.) -/
def detect (d : DetectorState) (input : Option Scores) :
    DetectorState × Gest :=
  match input with
  | none =>
      ({ state := .IDLE, last_gesture := .NONE, gesture_hold_frames := 0 },
       .NONE)
  | some sc => detectStep d sc

/-- The post-tick state sequence over a run of present-hand frames. -/
def runStates (d : DetectorState) : List Scores → List GState
  | [] => []
  | sc :: rest => (detectStep d sc).1.state :: runStates (detectStep d sc).1 rest

/-- The effective (returned) gesture sequence over a run. -/
def runOutputs (d : DetectorState) : List Scores → List Gest
  | [] => []
  | sc :: rest => (detectStep d sc).2 :: runOutputs (detectStep d sc).1 rest

/-- The raw `new_gesture` label sequence over a run. -/
def rawSeq (st : GState) : List Scores → List Gest
  | [] => []
  | sc :: rest => (machineStep st sc).2 :: rawSeq (machineStep st sc).1 rest

/-- A frame whose only nonzero score is the pinch score. -/
def pinchOnly (q : ℚ) : Scores :=
  { pinch := q, palm := 0, grab := 0, peace := 0 }

/-- Last element of a label list, `NONE` for the empty list (the
detector's initial `last_gesture`). -/
def lastD (l : List Gest) : Gest :=
  l.getLast?.getD .NONE

/-- Length of the trailing run of equal labels (how many consecutive
ticks, counted from the end, produced the final label). -/
def trailRun (l : List Gest) : Nat :=
  (l.reverse.takeWhile (fun g => g = lastD l)).length

/-- Length of the run of equal labels ending at index `i`. -/
def streak (l : List Gest) (i : Nat) : Nat :=
  ((l.take (i + 1)).reverse.takeWhile (fun g => g = l.getD i .NONE)).length

/-- The claim's debounce rule, applied declaratively to the raw label
stream: NONE until a label has held `min_hold_frames` consecutive
ticks, except that a raw PINCH surfaces immediately. -/
def debounced (l : List Gest) (i : Nat) : Gest :=
  if l.getD i .NONE = .PINCH then .PINCH
  else if min_hold_frames ≤ streak l i then l.getD i .NONE
  else .NONE

/-- A hand landmark point (normalized image coordinates; smaller y is
higher in the image). -/
structure Landmark where
  x : ℚ
  y : ℚ
  z : ℚ
deriving DecidableEq, Repr

/-- The four non-thumb fingers of `_is_finger_extended`. -/
inductive Finger where
  | index
  | middle
  | ring
  | pinky
deriving DecidableEq, Repr

/-- The `finger_tips` dictionary: (MCP, PIP, TIP) landmark indices. -/
def fingerJoints : Finger → Nat × Nat × Nat
  | .index => (5, 6, 8)
  | .middle => (9, 10, 12)
  | .ring => (13, 14, 16)
  | .pinky => (17, 18, 20)

/-- `self.curl_threshold = 0.03`. -/
def curl_threshold : ℚ := 0.03

/-- `_is_finger_extended`: the tip must be above the PIP joint by more
than the curl threshold, and above the MCP joint (strictly, with no
threshold margin). -/
def is_finger_extended (lms : Nat → Landmark) (finger : Finger) : Bool :=
  let mcp_y := (lms (fingerJoints finger).1).y
  let pip_y := (lms (fingerJoints finger).2.1).y
  let tip_y := (lms (fingerJoints finger).2.2).y
  decide (tip_y < pip_y - curl_threshold ∧ tip_y < mcp_y)

/-- The finger-extended predicate as the spec sentence words it: tip
above BOTH the PIP joint and the MCP joint by more than the curl
threshold. Stated for comparison with `is_finger_extended`. -/
def extendedSpecPredicate (lms : Nat → Landmark) (finger : Finger) : Bool :=
  let mcp_y := (lms (fingerJoints finger).1).y
  let pip_y := (lms (fingerJoints finger).2.1).y
  let tip_y := (lms (fingerJoints finger).2.2).y
  decide (tip_y < pip_y - curl_threshold ∧ tip_y < mcp_y - curl_threshold)

/-- A concrete hand whose index tip (landmark 8, y = 0.5) is above its
MCP (landmark 5, y = 0.51) by only 0.01 < curl threshold, but well
above its PIP (landmark 6, y = 0.8). -/
def marginalHand : Nat → Landmark := fun n =>
  if n = 8 then { x := 0, y := 0.5, z := 0 }
  else if n = 6 then { x := 0, y := 0.8, z := 0 }
  else { x := 0, y := 0.51, z := 0 }

/-- A captured landmark frame, as consumed by the sanity filter. -/
abbrev Frame := List Landmark

def defaultLandmark : Landmark := { x := 0, y := 0, z := 0 }

/-- The persistent state of the motion sanity filter
(`last_sane_landmarks`, `last_sane_timestamp`). -/
structure TrackerState where
  last_sane_landmarks : Option Frame
  last_sane_timestamp : Int
deriving DecidableEq, Repr

/-- `MAX_SPEED = 5.0` (screen widths per second). -/
def MAX_SPEED : ℚ := 5

/-- Squared wrist displacement between two frames (landmark 0). -/
def wristDistSq (f g : Frame) : ℚ :=
  let w := f.getD 0 defaultLandmark
  let p := g.getD 0 defaultLandmark
  (w.x - p.x) ^ 2 + (w.y - p.y) ^ 2 + (w.z - p.z) ^ 2

/-- `_is_velocity_sane`. The source computes
`speed = sqrt(distSq) / dt` and rejects when `speed > MAX_SPEED`; for
`dt > 0` this is equivalent to `distSq > (MAX_SPEED * dt)^2`
(`speed_check_equiv` below), which keeps the embedding in ℚ. -/
def is_velocity_sane (tr : TrackerState) (landmarks : Frame)
    (timestamp_ms : Int) : TrackerState × Bool :=
  match tr.last_sane_landmarks with
  | none =>
      ({ last_sane_landmarks := some landmarks,
         last_sane_timestamp := timestamp_ms }, true)
  | some prev =>
      let dt : ℚ := ((timestamp_ms - tr.last_sane_timestamp : Int) : ℚ) / 1000
      if dt ≤ 0 then (tr, true)
      else if wristDistSq landmarks prev > (MAX_SPEED * dt) ^ 2 then
        (tr, false)
      else
        ({ last_sane_landmarks := some landmarks,
           last_sane_timestamp := timestamp_ms }, true)

theorem cacheOK_init (gs : Int) : cacheOK (Engine.init gs) :=
  Or.inl rfl

theorem cacheOK_applyOp (e : Engine) (op : Op) (h : cacheOK e) :
    cacheOK (applyOp e op) := by
  cases op with
  | place x y z c =>
      simp only [applyOp, Engine.place_voxel]
      split
      · exact Or.inl rfl
      · exact h
  | remove x y z =>
      simp only [applyOp, Engine.remove_voxel]
      split
      · exact h
      · exact Or.inl rfl
  | undo =>
      simp only [applyOp, Engine.undo]
      split
      · exact h
      · exact Or.inl rfl
  | clear => exact Or.inl rfl
  | getFaces =>
      simp only [applyOp, Engine.get_visible_faces]
      split
      · exact h
      · exact Or.inr rfl

theorem cacheOK_applyOps (e : Engine) (ops : List Op) (h : cacheOK e) :
    cacheOK (applyOps e ops) := by
  induction ops generalizing e with
  | nil => exact h
  | cons op rest ih => exact ih _ (cacheOK_applyOp e op h)

/-- A coherent cache makes the memoized read agree with recomputation. -/
theorem get_visible_faces_eq_computeFaces (e : Engine) (h : cacheOK e) :
    e.get_visible_faces.2 = computeFaces e.voxels := by
  rcases h with h | h <;> simp [Engine.get_visible_faces, h]

/-- C1: after any sequence of store operations, `get_visible_faces`
returns exactly the face sequence a fresh recomputation from the store's
current voxel content would produce; the memoized cache is never
observed stale. -/
theorem visibleFaces_never_stale (gs : Int) (ops : List Op) :
    (applyOps (Engine.init gs) ops).get_visible_faces.2 =
      computeFaces (applyOps (Engine.init gs) ops).voxels :=
  get_visible_faces_eq_computeFaces _
    (cacheOK_applyOps _ ops (cacheOK_init gs))

/-- C2: `place_voxel` fails exactly on an out-of-bounds coordinate,
`remove_voxel` fails exactly on an empty cell, `undo` fails exactly on
an empty undo log, and every failure leaves the voxel map, the undo log
and the face cache unchanged. -/
theorem mutation_failure_characterization (e : Engine) (x y z : Int)
    (c : Option Color) :
    ((e.place_voxel x y z c).2 = false ↔ ¬ (e.is_valid_position x y z = true)) ∧
    ((e.place_voxel x y z c).2 = false → (e.place_voxel x y z c).1 = e) ∧
    ((e.remove_voxel x y z).2 = false ↔ dictGet e.voxels (x, y, z) = none) ∧
    ((e.remove_voxel x y z).2 = false → (e.remove_voxel x y z).1 = e) ∧
    (e.undo.2 = false ↔ e.undo_stack = []) ∧
    (e.undo.2 = false → e.undo.1 = e) := by
  refine ⟨?_, ?_, ?_, ?_, ?_, ?_⟩
  · unfold Engine.place_voxel
    split <;> simp_all
  · unfold Engine.place_voxel
    split <;> simp_all
  · cases h : dictGet e.voxels (x, y, z) <;>
      simp [Engine.remove_voxel, h]
  · cases h : dictGet e.voxels (x, y, z) <;>
      simp [Engine.remove_voxel, h]
  · cases h : e.undo_stack.getLast? with
    | none => simp_all [Engine.undo, List.getLast?_eq_none_iff]
    | some r =>
        simp only [Engine.undo, h]
        simp only [Bool.true_eq_false, false_iff]
        intro hnil
        rw [hnil] at h
        simp at h
  · cases h : e.undo_stack.getLast? <;>
      simp [Engine.undo, h]

/-- C2 witness: concrete failure cases evaluated on a 16³ grid. -/
theorem mutation_failure_characterization_witness :
    ((Engine.init 16).place_voxel 16 0 0 none).1 = Engine.init 16 ∧
    ((Engine.init 16).remove_voxel 3 3 3).1 = Engine.init 16 ∧
    (Engine.init 16).undo.1 = Engine.init 16 := by
  have h := mutation_failure_characterization (Engine.init 16) 16 0 0 none
  have h2 := mutation_failure_characterization (Engine.init 16) 3 3 3 none
  refine ⟨h.2.1 (by decide), h2.2.2.2.1 (by decide), h.2.2.2.2.2 (by decide)⟩

theorem mem_dictInsert (m : VoxelMap) (p : Pos) (v : Voxel) :
    ∀ pv ∈ dictInsert m p v, pv ∈ m ∨ pv = (p, v) := by
  induction m with
  | nil =>
      intro pv h
      simp [dictInsert] at h
      simp [h]
  | cons e t ih =>
      obtain ⟨k, w⟩ := e
      intro pv h
      by_cases hk : k = p
      · subst hk
        simp only [dictInsert, if_pos rfl] at h
        rcases List.mem_cons.mp h with h | h
        · right
          rw [h]
        · left
          exact List.mem_cons_of_mem _ h
      · simp only [dictInsert, if_neg hk] at h
        rcases List.mem_cons.mp h with h | h
        · left
          rw [h]
          exact List.mem_cons_self _ _
        · rcases ih pv h with h2 | h2
          · left
            exact List.mem_cons_of_mem _ h2
          · right
            exact h2

theorem dictGet_eq_none_iff (m : VoxelMap) (p : Pos) :
    dictGet m p = none ↔ p ∉ keys m := by
  induction m with
  | nil => simp [dictGet, keys]
  | cons e t ih =>
      obtain ⟨q, v⟩ := e
      by_cases h : q = p
      · subst h
        simp [dictGet, keys]
      · simp only [dictGet, if_neg h, keys, List.map_cons, List.mem_cons,
          not_or]
        rw [show (keys t = List.map Prod.fst t) from rfl] at ih
        rw [ih]
        constructor
        · intro hnp
          exact ⟨fun hpq => h hpq.symm, hnp⟩
        · intro hnp
          exact hnp.2

theorem mem_of_dictGet_eq_some (m : VoxelMap) (p : Pos) (v : Voxel)
    (h : dictGet m p = some v) : (p, v) ∈ m := by
  induction m with
  | nil => simp [dictGet] at h
  | cons e t ih =>
      obtain ⟨q, w⟩ := e
      by_cases hq : q = p
      · subst hq
        simp [dictGet] at h
        simp [h]
      · simp only [dictGet, if_neg hq] at h
        exact List.mem_cons_of_mem _ (ih h)

theorem dictGet_dictInsert (m : VoxelMap) (p q : Pos) (v : Voxel) :
    dictGet (dictInsert m p v) q = if p = q then some v else dictGet m q := by
  induction m with
  | nil =>
      by_cases hpq : p = q <;> simp [dictInsert, dictGet, hpq]
  | cons e t ih =>
      obtain ⟨k, w⟩ := e
      by_cases hk : k = p
      · subst hk
        by_cases hq : k = q <;> simp [dictInsert, dictGet, hq]
      · by_cases hq : k = q
        · subst hq
          have hpq : ¬ p = k := fun h2 => hk h2.symm
          simp [dictInsert, dictGet, hk, hpq]
        · simp [dictInsert, dictGet, hk, hq, ih]

theorem keys_dictErase_sublist (m : VoxelMap) (p : Pos) :
    (keys (dictErase m p)).Sublist (keys m) := by
  induction m with
  | nil => simp [dictErase, keys]
  | cons e t ih =>
      obtain ⟨k, w⟩ := e
      by_cases hk : k = p
      · simp only [dictErase, if_pos hk, keys, List.map_cons]
        exact List.sublist_cons_self _ _
      · simp only [dictErase, if_neg hk, keys, List.map_cons]
        exact List.Sublist.cons₂ _ ih

theorem dictErase_sublist (m : VoxelMap) (p : Pos) :
    (dictErase m p).Sublist m := by
  induction m with
  | nil => simp [dictErase]
  | cons e t ih =>
      obtain ⟨k, w⟩ := e
      by_cases hk : k = p
      · simp only [dictErase, if_pos hk]
        exact List.sublist_cons_self _ _
      · simp only [dictErase, if_neg hk]
        exact List.Sublist.cons₂ _ ih

theorem dictGet_dictErase (m : VoxelMap) (p q : Pos)
    (hnd : (keys m).Nodup) :
    dictGet (dictErase m p) q = if p = q then none else dictGet m q := by
  induction m with
  | nil => by_cases hpq : p = q <;> simp [dictErase, dictGet, hpq]
  | cons e t ih =>
      obtain ⟨k, w⟩ := e
      simp only [keys, List.map_cons, List.nodup_cons] at hnd
      have ht := ih hnd.2
      by_cases hk : k = p
      · subst hk
        by_cases hq : k = q
        · subst hq
          simp only [dictErase, dictGet, if_pos rfl, ite_true]
          rw [dictGet_eq_none_iff]
          exact hnd.1
        · simp [dictErase, dictGet, hq]
      · by_cases hq : k = q
        · subst hq
          have hpq : ¬ p = k := fun h2 => hk h2.symm
          simp [dictErase, dictGet, hk, hpq]
        · simp [dictErase, dictGet, hk, hq, ht]

theorem keys_nodup_dictInsert (m : VoxelMap) (p : Pos) (v : Voxel)
    (hnd : (keys m).Nodup) : (keys (dictInsert m p v)).Nodup := by
  induction m with
  | nil => simp [dictInsert, keys]
  | cons e t ih =>
      obtain ⟨k, w⟩ := e
      simp only [keys, List.map_cons, List.nodup_cons] at hnd
      by_cases hk : k = p
      · simp only [dictInsert, if_pos hk, keys, List.map_cons,
          List.nodup_cons]
        exact hnd
      · simp only [dictInsert, if_neg hk, keys, List.map_cons,
          List.nodup_cons]
        refine ⟨?_, ih hnd.2⟩
        intro hmem
        rcases List.mem_map.mp hmem with ⟨pv, hpv, hfst⟩
        rcases mem_dictInsert t p v pv hpv with h | h
        · exact hnd.1 (List.mem_map.mpr ⟨_, h, hfst⟩)
        · rw [h] at hfst
          exact hk hfst.symm

theorem bounds_dictInsert (m : VoxelMap) (p : Pos) (v : Voxel)
    (P : Pos → Prop) (hm : ∀ pv ∈ m, P pv.1) (hp : P p) :
    ∀ pv ∈ dictInsert m p v, P pv.1 := by
  intro pv hpv
  rcases mem_dictInsert m p v pv hpv with h | h
  · exact hm _ h
  · rw [h]
    exact hp

theorem bounds_undoVox (m : VoxelMap) (r : UndoRecord)
    (P : Pos → Prop) (hm : ∀ pv ∈ m, P pv.1) (hp : P r.pos) :
    ∀ pv ∈ undoVox m r, P pv.1 := by
  obtain ⟨act, pos, vox⟩ := r
  cases act <;> cases vox <;> simp only [undoVox]
  · split
    · exact fun pv hpv => hm pv ((dictErase_sublist m pos).mem hpv)
    · exact hm
  · exact bounds_dictInsert _ _ _ P hm hp
  · exact hm
  · exact bounds_dictInsert _ _ _ P hm hp

theorem nodup_keys_undoVox (m : VoxelMap) (r : UndoRecord)
    (hnd : (keys m).Nodup) : (keys (undoVox m r)).Nodup := by
  obtain ⟨act, pos, vox⟩ := r
  cases act <;> cases vox <;> simp only [undoVox]
  · split
    · exact (keys_dictErase_sublist m pos).nodup hnd
    · exact hnd
  · exact keys_nodup_dictInsert _ _ _ hnd
  · exact hnd
  · exact keys_nodup_dictInsert _ _ _ hnd

theorem storeInv_init (gs : Int) : storeInv (Engine.init gs) := by
  refine ⟨?_, ?_, ?_⟩ <;> simp [Engine.init, keys]

theorem mem_push_undo (st : List UndoRecord) (r s : UndoRecord)
    (h : s ∈ push_undo st r) : s ∈ st ∨ s = r := by
  unfold push_undo at h
  split at h <;>
    rcases List.mem_append.mp (by first | exact List.mem_of_mem_drop h | exact h) with h2 | h2
  · exact Or.inl h2
  · exact Or.inr (List.mem_singleton.mp h2)
  · exact Or.inl h2
  · exact Or.inr (List.mem_singleton.mp h2)

theorem storeInv_applyOp (e : Engine) (op : Op) (h : storeInv e) :
    storeInv (applyOp e op) := by
  obtain ⟨hb, hnd, hs⟩ := h
  cases op with
  | place x y z c =>
      simp only [applyOp, Engine.place_voxel]
      split
      · rename_i hvalid
        refine ⟨?_, ?_, ?_⟩
        · exact bounds_dictInsert _ _ _
            (fun p => e.is_valid_position p.1 p.2.1 p.2.2 = true) hb hvalid
        · exact keys_nodup_dictInsert _ _ _ hnd
        · intro r hr
          rcases mem_push_undo _ _ _ hr with h2 | h2
          · exact hs r h2
          · rw [h2]
            exact hvalid
      · exact ⟨hb, hnd, hs⟩
  | remove x y z =>
      simp only [applyOp, Engine.remove_voxel]
      cases hg : dictGet e.voxels (x, y, z) with
      | none => exact ⟨hb, hnd, hs⟩
      | some v =>
          have hmem := mem_of_dictGet_eq_some _ _ _ hg
          have hvalid := hb _ hmem
          refine ⟨?_, ?_, ?_⟩
          · intro pv hpv
            exact hb pv ((dictErase_sublist e.voxels (x, y, z)).mem hpv)
          · exact (keys_dictErase_sublist e.voxels (x, y, z)).nodup hnd
          · intro r hr
            rcases mem_push_undo _ _ _ hr with h2 | h2
            · exact hs r h2
            · rw [h2]
              exact hvalid
  | undo =>
      simp only [applyOp, Engine.undo]
      cases hg : e.undo_stack.getLast? with
      | none => exact ⟨hb, hnd, hs⟩
      | some r =>
          have hr : r ∈ e.undo_stack := by
            have h2 := List.dropLast_append_getLast? r hg
            rw [← h2]
            exact List.mem_append_right _ (List.mem_singleton.mpr rfl)
          have hrb := hs r hr
          have hdrop : ∀ s ∈ e.undo_stack.dropLast, s ∈ e.undo_stack :=
            fun s hsd => (List.dropLast_sublist e.undo_stack).mem hsd
          refine ⟨?_, ?_, fun s hsd => hs s (hdrop s hsd)⟩
          · exact bounds_undoVox e.voxels r
              (fun p => e.is_valid_position p.1 p.2.1 p.2.2 = true) hb hrb
          · exact nodup_keys_undoVox e.voxels r hnd
  | clear =>
      refine ⟨?_, ?_, ?_⟩ <;> simp [applyOp, Engine.clear, keys]
  | getFaces =>
      simp only [applyOp, Engine.get_visible_faces]
      split
      · exact ⟨hb, hnd, hs⟩
      · exact ⟨hb, hnd, hs⟩

theorem storeInv_applyOps (e : Engine) (ops : List Op) (h : storeInv e) :
    storeInv (applyOps e ops) := by
  induction ops generalizing e with
  | nil => exact h
  | cons op rest ih => exact ih _ (storeInv_applyOp e op h)

/-- C6: in every state reachable from a fresh engine by store
operations, every key of the voxel store satisfies the bounds check and
no two distinct entries share a coordinate. -/
theorem voxel_store_invariant (gs : Int) (ops : List Op) :
    (∀ pv ∈ (applyOps (Engine.init gs) ops).voxels,
        (applyOps (Engine.init gs) ops).is_valid_position
          pv.1.1 pv.1.2.1 pv.1.2.2 = true) ∧
    (keys (applyOps (Engine.init gs) ops).voxels).Nodup :=
  ⟨(storeInv_applyOps _ ops (storeInv_init gs)).1,
   (storeInv_applyOps _ ops (storeInv_init gs)).2.1⟩

theorem dictErase_dictInsert_of_get_none (m : VoxelMap) (p : Pos) (v : Voxel)
    (h : dictGet m p = none) : dictErase (dictInsert m p v) p = m := by
  induction m with
  | nil => simp [dictInsert, dictErase]
  | cons e t ih =>
      obtain ⟨k, w⟩ := e
      have hk : ¬ k = p := by
        intro hkp
        subst hkp
        simp [dictGet] at h
      have ht : dictGet t p = none := by
        simpa [dictGet, hk] using h
      simp [dictInsert, dictErase, hk, ih ht]

/-- C3 counterexample: from the reachable state holding a white voxel at
`(0,0,0)` of a 1³ grid, placing a blue voxel at `(0,0,0)` and then
removing `(0,0,0)` leaves the cell empty (and the face list empty)
instead of restoring the pre-place white voxel and its 6 faces. -/
theorem place_remove_roundtrip_counterexample :
    ((((Engine.init 1).place_voxel 0 0 0 (some (255, 255, 255))).1.place_voxel
        0 0 0 (some (50, 150, 255))).1.remove_voxel 0 0 0).1.voxels ≠
      ((Engine.init 1).place_voxel 0 0 0 (some (255, 255, 255))).1.voxels ∧
    ((((Engine.init 1).place_voxel 0 0 0 (some (255, 255, 255))).1.place_voxel
        0 0 0 (some (50, 150, 255))).1.remove_voxel 0 0 0).1.get_visible_faces.2 ≠
      ((Engine.init 1).place_voxel 0 0 0 (some (255, 255, 255))).1.get_visible_faces.2 := by
  decide

/-- C3 (amended): for every grid size ≥ 1, every reachable store state
and every in-bounds coordinate that is EMPTY in that state, placing at
the coordinate and then immediately removing it restores the voxel
content and the `get_visible_faces` value. (If the coordinate is
already occupied, the round-trip deletes the pre-existing voxel.) -/
theorem place_remove_roundtrip (gs x y z : Int) (c : Option Color)
    (ops : List Op) (_hgs : 1 ≤ gs)
    (hvalid : (applyOps (Engine.init gs) ops).is_valid_position x y z = true)
    (hempty : dictGet (applyOps (Engine.init gs) ops).voxels (x, y, z) = none) :
    ((((applyOps (Engine.init gs) ops).place_voxel x y z c).1.remove_voxel
        x y z).1.voxels = (applyOps (Engine.init gs) ops).voxels) ∧
    ((((applyOps (Engine.init gs) ops).place_voxel x y z c).1.remove_voxel
        x y z).1.get_visible_faces.2 =
      (applyOps (Engine.init gs) ops).get_visible_faces.2) := by
  set e := applyOps (Engine.init gs) ops with he
  have hv1 : (e.place_voxel x y z c).1.voxels =
      dictInsert e.voxels (x, y, z) { color := c.getD e.current_color } := by
    simp [Engine.place_voxel, hvalid]
  have hget : dictGet (e.place_voxel x y z c).1.voxels (x, y, z) =
      some { color := c.getD e.current_color } := by
    rw [hv1, dictGet_dictInsert]
    simp
  have hv2 : ((e.place_voxel x y z c).1.remove_voxel x y z).1.voxels =
      dictErase (e.place_voxel x y z c).1.voxels (x, y, z) := by
    simp [Engine.remove_voxel, hget]
  have hc2 : ((e.place_voxel x y z c).1.remove_voxel x y z).1.cache = none := by
    simp [Engine.remove_voxel, hget]
  have hvox : ((e.place_voxel x y z c).1.remove_voxel x y z).1.voxels =
      e.voxels := by
    rw [hv2, hv1, dictErase_dictInsert_of_get_none _ _ _ hempty]
  refine ⟨hvox, ?_⟩
  have hfe : e.get_visible_faces.2 = computeFaces e.voxels :=
    get_visible_faces_eq_computeFaces e (cacheOK_applyOps _ ops (cacheOK_init gs))
  have hfr : ((e.place_voxel x y z c).1.remove_voxel x y z).1.get_visible_faces.2 =
      computeFaces ((e.place_voxel x y z c).1.remove_voxel x y z).1.voxels :=
    get_visible_faces_eq_computeFaces _ (Or.inl hc2)
  rw [hfr, hvox, hfe]

/-- C3 witness: empty 2³ grid, place then remove at the origin. -/
theorem place_remove_roundtrip_witness :
    ((((applyOps (Engine.init 2) []).place_voxel 0 0 0 none).1.remove_voxel
        0 0 0).1.voxels = (applyOps (Engine.init 2) []).voxels) ∧
    ((((applyOps (Engine.init 2) []).place_voxel 0 0 0 none).1.remove_voxel
        0 0 0).1.get_visible_faces.2 =
      (applyOps (Engine.init 2) []).get_visible_faces.2) :=
  place_remove_roundtrip 2 0 0 0 none [] (by decide) (by decide) (by decide)

theorem dictInsert_dictInsert (m : VoxelMap) (p : Pos) (v w : Voxel) :
    dictInsert (dictInsert m p v) p w = dictInsert m p w := by
  induction m with
  | nil => simp [dictInsert]
  | cons e t ih =>
      obtain ⟨k, u⟩ := e
      by_cases hk : k = p <;> simp [dictInsert, hk, ih]

theorem dictInsert_self_of_get_some (m : VoxelMap) (p : Pos) (v : Voxel)
    (h : dictGet m p = some v) : dictInsert m p v = m := by
  induction m with
  | nil => simp [dictGet] at h
  | cons e t ih =>
      obtain ⟨k, u⟩ := e
      by_cases hk : k = p
      · subst hk
        have hu : u = v := by
          simpa [dictGet] using h
        subst hu
        simp [dictInsert]
      · simp only [dictGet, if_neg hk] at h
        simp [dictInsert, hk, ih h]

theorem dictGet_nil_of_all_none (m : VoxelMap)
    (h : ∀ p, dictGet m p = none) : m = [] := by
  cases m with
  | nil => rfl
  | cons e t =>
      obtain ⟨k, w⟩ := e
      have := h k
      simp [dictGet] at this

theorem applyPROp_toOp (e : Engine) (op : PROp) :
    applyPROp e op = applyOp e op.toOp := by
  cases op <;> rfl

theorem applyPROps_eq_applyOps (e : Engine) (l : List PROp) :
    applyPROps e l = applyOps e (l.map PROp.toOp) := by
  induction l generalizing e with
  | nil => rfl
  | cons op rest ih => simp [applyPROps, applyOps, applyPROp_toOp, ih]

theorem applyPROps_append (e : Engine) (l : List PROp) (op : PROp) :
    applyPROps e (l ++ [op]) = applyPROp (applyPROps e l) op := by
  induction l generalizing e with
  | nil => rfl
  | cons o rest ih => simp [applyPROps, ih]

theorem undoN_succ_right (e : Engine) (n : Nat) :
    undoN e (n + 1) = (undoN e n).undo.1 := by
  induction n generalizing e with
  | zero => rfl
  | succ n ih =>
      show undoN e.undo.1 (n + 1) = (undoN e.undo.1 n).undo.1
      exact ih e.undo.1

theorem undo_of_stack_nil (e : Engine) (h : e.undo_stack = []) :
    e.undo.1 = e := by
  simp [Engine.undo, h]

theorem push_undo_eq_append (st : List UndoRecord) (r : UndoRecord)
    (h : st.length < max_undo) : push_undo st r = st ++ [r] := by
  unfold push_undo
  rw [if_neg]
  simp only [List.length_append, List.length_singleton]
  omega

theorem length_push_undo_le (st : List UndoRecord) (r : UndoRecord) :
    (push_undo st r).length ≤ st.length + 1 := by
  unfold push_undo
  split <;> simp [List.length_dropLast]

theorem stack_length_applyPROp (e : Engine) (op : PROp) :
    (applyPROp e op).undo_stack.length ≤ e.undo_stack.length + 1 := by
  cases op with
  | place x y z c =>
      simp only [applyPROp, Engine.place_voxel]
      split
      · exact length_push_undo_le _ _
      · exact Nat.le_succ _
  | remove x y z =>
      simp only [applyPROp, Engine.remove_voxel]
      cases hg : dictGet e.voxels (x, y, z)
      · simp
      · simpa using length_push_undo_le _ _

theorem stack_length_applyPROps (e : Engine) (l : List PROp) :
    (applyPROps e l).undo_stack.length ≤ e.undo_stack.length + l.length := by
  induction l generalizing e with
  | nil => simp [applyPROps]
  | cons op rest ih =>
      calc (applyPROps (applyPROp e op) rest).undo_stack.length
          ≤ (applyPROp e op).undo_stack.length + rest.length := ih _
        _ ≤ e.undo_stack.length + 1 + rest.length := by
            have := stack_length_applyPROp e op
            omega
        _ = e.undo_stack.length + (op :: rest).length := by
            simp
            omega

theorem cache_none_applyPROp (e : Engine) (op : PROp) (h : e.cache = none) :
    (applyPROp e op).cache = none := by
  cases op with
  | place x y z c =>
      simp only [applyPROp, Engine.place_voxel]
      split <;> simp [h]
  | remove x y z =>
      simp only [applyPROp, Engine.remove_voxel]
      cases hg : dictGet e.voxels (x, y, z) <;> simp [h]

theorem cache_none_applyPROps (e : Engine) (l : List PROp)
    (h : e.cache = none) : (applyPROps e l).cache = none := by
  induction l generalizing e with
  | nil => exact h
  | cons op rest ih => exact ih _ (cache_none_applyPROp e op h)

theorem eqvC_refl (a : Engine) : eqvC a a :=
  ⟨rfl, rfl, rfl, rfl, fun _ => rfl⟩

theorem eqvC_trans (a b c : Engine) (h1 : eqvC a b) (h2 : eqvC b c) :
    eqvC a c := by
  obtain ⟨g1, c1, s1, k1, v1⟩ := h1
  obtain ⟨g2, c2, s2, k2, v2⟩ := h2
  exact ⟨g1.trans g2, c1.trans c2, s1.trans s2, k1.trans k2,
    fun p => (v1 p).trans (v2 p)⟩

theorem undo_getLast_some (e : Engine) (r : UndoRecord)
    (h : e.undo_stack.getLast? = some r) :
    e.undo.1 =
      { e with
          voxels := undoVox e.voxels r
          undo_stack := e.undo_stack.dropLast
          cache := none } := by
  simp [Engine.undo, h]

theorem dictGet_undoVox_congr (m1 m2 : VoxelMap) (r : UndoRecord)
    (hv : ∀ p, dictGet m1 p = dictGet m2 p)
    (hn1 : (keys m1).Nodup) (hn2 : (keys m2).Nodup) :
    ∀ q, dictGet (undoVox m1 r) q = dictGet (undoVox m2 r) q := by
  intro q
  obtain ⟨act, pos, vox⟩ := r
  cases act <;> cases vox <;> simp only [undoVox]
  · have hh : has_voxel m1 pos = has_voxel m2 pos := by
      simp [has_voxel, hv pos]
    rw [hh]
    split
    · rw [dictGet_dictErase _ _ _ hn1, dictGet_dictErase _ _ _ hn2]
      by_cases hpq : pos = q <;> simp [hpq, hv q]
    · exact hv q
  · rw [dictGet_dictInsert, dictGet_dictInsert]
    by_cases hpq : pos = q <;> simp [hpq, hv q]
  · exact hv q
  · rw [dictGet_dictInsert, dictGet_dictInsert]
    by_cases hpq : pos = q <;> simp [hpq, hv q]

theorem nodup_keys_undo (e : Engine) (h : (keys e.voxels).Nodup) :
    (keys e.undo.1.voxels).Nodup := by
  cases hgl : e.undo_stack.getLast? with
  | none =>
      rw [show e.undo.1 = e by simp [Engine.undo, hgl]]
      exact h
  | some r =>
      rw [undo_getLast_some e r hgl]
      exact nodup_keys_undoVox _ _ h

theorem eqvC_undo (a b : Engine) (h : eqvC a b)
    (hna : (keys a.voxels).Nodup) (hnb : (keys b.voxels).Nodup) :
    eqvC a.undo.1 b.undo.1 := by
  obtain ⟨h1, h2, h3, h4, h5⟩ := h
  cases hgl : b.undo_stack.getLast? with
  | none =>
      have hga : a.undo_stack.getLast? = none := by rw [h3, hgl]
      rw [show a.undo.1 = a by simp [Engine.undo, hga],
        show b.undo.1 = b by simp [Engine.undo, hgl]]
      exact ⟨h1, h2, h3, h4, h5⟩
  | some r =>
      have hga : a.undo_stack.getLast? = some r := by rw [h3, hgl]
      rw [undo_getLast_some a r hga, undo_getLast_some b r hgl]
      exact ⟨h1, h2, by rw [h3], rfl,
        dictGet_undoVox_congr _ _ r h5 hna hnb⟩

theorem eqvC_undoN (n : Nat) (a b : Engine) (h : eqvC a b)
    (hna : (keys a.voxels).Nodup) (hnb : (keys b.voxels).Nodup) :
    eqvC (undoN a n) (undoN b n) := by
  induction n generalizing a b with
  | zero => exact h
  | succ n ih =>
      exact ih a.undo.1 b.undo.1 (eqvC_undo a b h hna hnb)
        (nodup_keys_undo a hna) (nodup_keys_undo b hnb)

/-- One successful place/remove operation is reversed by one `undo`, up
to voxel insertion order; a failed operation changes nothing. -/
theorem undo_applyPROp (e : Engine) (op : PROp)
    (hlen : e.undo_stack.length < max_undo)
    (hcache : e.cache = none)
    (hnd : (keys e.voxels).Nodup) :
    eqvC (applyPROp e op).undo.1 e ∨ applyPROp e op = e := by
  cases op with
  | place x y z c =>
      by_cases hvalid : e.is_valid_position x y z = true
      · left
        have hstack : (applyPROp e (.place x y z c)).undo_stack =
            e.undo_stack ++
              [{ action := .place, pos := (x, y, z),
                 voxel := dictGet e.voxels (x, y, z) }] := by
          simp [applyPROp, Engine.place_voxel, hvalid,
            push_undo_eq_append _ _ hlen]
        have hvox : (applyPROp e (.place x y z c)).voxels =
            dictInsert e.voxels (x, y, z)
              { color := c.getD e.current_color } := by
          simp [applyPROp, Engine.place_voxel, hvalid]
        have hgl : (applyPROp e (.place x y z c)).undo_stack.getLast? =
            some { action := .place, pos := (x, y, z),
                   voxel := dictGet e.voxels (x, y, z) } := by
          rw [hstack, List.getLast?_concat]
        rw [undo_getLast_some _ _ hgl]
        refine ⟨?_, ?_, ?_, ?_, ?_⟩
        · simp [applyPROp, Engine.place_voxel, hvalid]
        · simp [applyPROp, Engine.place_voxel, hvalid]
        · simp [hstack]
        · simp [hcache]
        · intro q
          cases hold : dictGet e.voxels (x, y, z) with
          | none =>
              simp only [undoVox, hold, hvox]
              rw [if_pos]
              · rw [dictErase_dictInsert_of_get_none _ _ _ hold]
              · simp [has_voxel, dictGet_dictInsert]
          | some old =>
              simp only [undoVox, hold, hvox]
              rw [dictInsert_dictInsert,
                dictInsert_self_of_get_some _ _ _ hold]
      · right
        simp [applyPROp, Engine.place_voxel, hvalid]
  | remove x y z =>
      cases hold : dictGet e.voxels (x, y, z) with
      | none =>
          right
          simp [applyPROp, Engine.remove_voxel, hold]
      | some old =>
          left
          have hstack : (applyPROp e (.remove x y z)).undo_stack =
              e.undo_stack ++
                [{ action := .remove, pos := (x, y, z),
                   voxel := some old }] := by
            simp [applyPROp, Engine.remove_voxel, hold,
              push_undo_eq_append _ _ hlen]
          have hvox : (applyPROp e (.remove x y z)).voxels =
              dictErase e.voxels (x, y, z) := by
            simp [applyPROp, Engine.remove_voxel, hold]
          have hgl : (applyPROp e (.remove x y z)).undo_stack.getLast? =
              some { action := .remove, pos := (x, y, z),
                     voxel := some old } := by
            rw [hstack, List.getLast?_concat]
          rw [undo_getLast_some _ _ hgl]
          refine ⟨?_, ?_, ?_, ?_, ?_⟩
          · simp [applyPROp, Engine.remove_voxel, hold]
          · simp [applyPROp, Engine.remove_voxel, hold]
          · simp [hstack]
          · simp [hcache]
          · intro q
            simp only [undoVox, hvox]
            rw [dictGet_dictInsert]
            by_cases hpq : (x, y, z) = q
            · rw [if_pos hpq, ← hpq, hold]
            · rw [if_neg hpq, dictGet_dictErase _ _ _ hnd, if_neg hpq]

theorem undoN_applyPROps_eqv (gs : Int) (ops : List PROp)
    (h : ops.length ≤ max_undo) :
    eqvC (undoN (applyPROps (Engine.init gs) ops) ops.length)
      (Engine.init gs) := by
  induction ops using List.reverseRecOn with
  | nil => exact eqvC_refl _
  | append_singleton l op ih =>
      have hlen : l.length + 1 ≤ max_undo := by
        simpa using h
      have ihl := ih (by omega)
      have hstack : (applyPROps (Engine.init gs) l).undo_stack.length ≤
          l.length := by
        have h2 := stack_length_applyPROps (Engine.init gs) l
        simpa [Engine.init] using h2
      have hlt : (applyPROps (Engine.init gs) l).undo_stack.length <
          max_undo := by omega
      have hcache : (applyPROps (Engine.init gs) l).cache = none :=
        cache_none_applyPROps _ _ rfl
      have hinv : storeInv (applyPROps (Engine.init gs) l) := by
        rw [applyPROps_eq_applyOps]
        exact storeInv_applyOps _ _ (storeInv_init gs)
      have hinv2 : storeInv (applyPROp (applyPROps (Engine.init gs) l) op) := by
        rw [applyPROp_toOp]
        exact storeInv_applyOp _ _ hinv
      rw [applyPROps_append, List.length_append, List.length_singleton]
      rcases undo_applyPROp (applyPROps (Engine.init gs) l) op hlt hcache
        hinv.2.1 with hstep | hfail
      · show eqvC
          (undoN (applyPROp (applyPROps (Engine.init gs) l) op).undo.1
            l.length) (Engine.init gs)
        exact eqvC_trans _ _ _
          (eqvC_undoN l.length _ _ hstep
            (nodup_keys_undo _ hinv2.2.1) hinv.2.1)
          ihl
      · rw [hfail, undoN_succ_right]
        have hnil : (undoN (applyPROps (Engine.init gs) l) l.length).undo_stack
            = [] := ihl.2.2.1
        rw [undo_of_stack_nil _ hnil]
        exact ihl

theorem engine_eq_of_fields (a b : Engine)
    (h1 : a.grid_size = b.grid_size) (h2 : a.voxels = b.voxels)
    (h3 : a.current_color_index = b.current_color_index)
    (h4 : a.undo_stack = b.undo_stack) (h5 : a.cache = b.cache) :
    a = b := by
  cases a
  cases b
  simp_all

/-- C4: starting from an empty store, after any sequence of at most 50
place/remove operations, calling `undo` once per operation returns the
engine to its initial empty state. -/
theorem undo_all_restores_empty (gs : Int) (ops : List PROp)
    (h : ops.length ≤ 50) :
    undoN (applyPROps (Engine.init gs) ops) ops.length = Engine.init gs := by
  have he := undoN_applyPROps_eqv gs ops h
  obtain ⟨h1, h2, h3, h4, h5⟩ := he
  refine engine_eq_of_fields _ _ h1 ?_ h2 h3 h4
  have hnone : ∀ p,
      dictGet (undoN (applyPROps (Engine.init gs) ops) ops.length).voxels p
        = none := by
    intro p
    rw [h5 p]
    rfl
  rw [dictGet_nil_of_all_none _ hnone]
  rfl

/-- C4 witness: a 2³ grid, four operations (one of them an out-of-bounds
failure), four undos. -/
theorem undo_all_restores_empty_witness :
    undoN (applyPROps (Engine.init 2)
        [.place 0 0 0 none, .remove 0 0 0, .place 1 1 1 (some (1, 2, 3)),
         .place 9 9 9 none])
      [PROp.place 0 0 0 none, PROp.remove 0 0 0,
       PROp.place 1 1 1 (some (1, 2, 3)), PROp.place 9 9 9 none].length =
      Engine.init 2 :=
  undo_all_restores_empty 2 _ (by decide)

theorem length_flatMap_eq_sum {α β : Type} (l : List α) (f : α → List β) :
    (l.flatMap f).length = (l.map (fun x => (f x).length)).sum := by
  induction l with
  | nil => rfl
  | cons a t ih => simp [List.flatMap_cons, ih]

theorem singleCell_faces (x y z : Int) (v : Voxel) :
    (computeFaces [((x, y, z), v)]).length = 6 := by
  simp [computeFaces, facesForCell, directions, has_voxel, dictGet,
    offsetPos, Prod.ext_iff]

theorem twoAdjacent_faces_x (x y z : Int) (v1 v2 : Voxel) :
    (computeFaces [((x, y, z), v1), ((x + 1, y, z), v2)]).length = 10 := by
  simp [computeFaces, facesForCell, directions, has_voxel, dictGet,
    offsetPos, Prod.ext_iff, add_assoc]

theorem twoAdjacent_faces_y (x y z : Int) (v1 v2 : Voxel) :
    (computeFaces [((x, y, z), v1), ((x, y + 1, z), v2)]).length = 10 := by
  simp [computeFaces, facesForCell, directions, has_voxel, dictGet,
    offsetPos, Prod.ext_iff, add_assoc]

theorem twoAdjacent_faces_z (x y z : Int) (v1 v2 : Voxel) :
    (computeFaces [((x, y, z), v1), ((x, y, z + 1), v2)]).length = 10 := by
  simp [computeFaces, facesForCell, directions, has_voxel, dictGet,
    offsetPos, Prod.ext_iff, add_assoc]

theorem values_cubeList (a b c : Int) (k : Nat) (v : Voxel) :
    ∀ pv ∈ cubeList a b c k v, pv.2 = v := by
  intro pv h
  simp only [cubeList, List.mem_flatMap, List.mem_map, List.mem_range] at h
  obtain ⟨i, hi, j, hj, l, hl, hpv⟩ := h
  rw [← hpv]

theorem dictGet_of_const_values (m : VoxelMap) (v : Voxel) (q : Pos)
    (hall : ∀ pv ∈ m, pv.2 = v) :
    dictGet m q = if q ∈ keys m then some v else none := by
  induction m with
  | nil => simp [dictGet, keys]
  | cons e t ih =>
      obtain ⟨p, w⟩ := e
      have hw : w = v := hall (p, w) (List.mem_cons_self _ _)
      have ht := ih (fun pv hpv => hall pv (List.mem_cons_of_mem _ hpv))
      by_cases hpq : p = q
      · subst hpq
        simp [dictGet, keys, hw]
      · have hk : keys ((p, w) :: t) = p :: keys t := rfl
        simp only [dictGet, if_neg hpq, hk, List.mem_cons]
        rw [ht]
        by_cases hq : q ∈ keys t
        · rw [if_pos hq, if_pos (Or.inr hq)]
        · rw [if_neg hq, if_neg]
          rintro (h2 | h2)
          · exact hpq h2.symm
          · exact hq h2

theorem mem_keys_cubeList (a b c : Int) (k : Nat) (v : Voxel)
    (qx qy qz : Int) :
    (qx, qy, qz) ∈ keys (cubeList a b c k v) ↔
      (a ≤ qx ∧ qx < a + k ∧ b ≤ qy ∧ qy < b + k ∧
       c ≤ qz ∧ qz < c + k) := by
  constructor
  · intro hmem
    obtain ⟨pv, hpv, hfst⟩ := List.mem_map.mp hmem
    obtain ⟨i, hir, hpv2⟩ := List.mem_flatMap.mp hpv
    obtain ⟨j, hjr, hpv3⟩ := List.mem_flatMap.mp hpv2
    obtain ⟨l, hlr, hpveq⟩ := List.mem_map.mp hpv3
    rw [List.mem_range] at hir hjr hlr
    rw [← hpveq] at hfst
    simp only [Prod.mk.injEq] at hfst
    obtain ⟨h1, h2, h3⟩ := hfst
    refine ⟨?_, ?_, ?_, ?_, ?_, ?_⟩ <;> omega
  · rintro ⟨h1, h2, h3, h4, h5, h6⟩
    refine List.mem_map.mpr ⟨((qx, qy, qz), v), ?_, rfl⟩
    refine List.mem_flatMap.mpr ⟨(qx - a).toNat,
      List.mem_range.mpr (by omega), ?_⟩
    refine List.mem_flatMap.mpr ⟨(qy - b).toNat,
      List.mem_range.mpr (by omega), ?_⟩
    refine List.mem_map.mpr ⟨(qz - c).toNat,
      List.mem_range.mpr (by omega), ?_⟩
    have e1 : a + (((qx - a).toNat : Nat) : Int) = qx := by omega
    have e2 : b + (((qy - b).toNat : Nat) : Int) = qy := by omega
    have e3 : c + (((qz - c).toNat : Nat) : Int) = qz := by omega
    rw [e1, e2, e3]

theorem has_voxel_cubeList (a b c : Int) (k : Nat) (v : Voxel) (q : Pos) :
    has_voxel (cubeList a b c k v) q =
      decide (a ≤ q.1 ∧ q.1 < a + (k : Int) ∧ b ≤ q.2.1 ∧
        q.2.1 < b + (k : Int) ∧ c ≤ q.2.2 ∧ q.2.2 < c + (k : Int)) := by
  obtain ⟨qx, qy, qz⟩ := q
  rw [has_voxel, dictGet_of_const_values _ v _ (values_cubeList a b c k v)]
  by_cases h : (a ≤ qx ∧ qx < a + (k : Int) ∧ b ≤ qy ∧
      qy < b + (k : Int) ∧ c ≤ qz ∧ qz < c + (k : Int))
  · rw [if_pos ((mem_keys_cubeList a b c k v qx qy qz).mpr h)]
    simp [h]
  · rw [if_neg (fun hm => h ((mem_keys_cubeList a b c k v qx qy qz).mp hm))]
    simp [h]

set_option maxHeartbeats 1600000 in
theorem facesForCell_cube (a b c : Int) (k : Nat) (v : Voxel) (i j l : Nat)
    (hi : i < k) (hj : j < k) (hl : l < k) :
    (facesForCell (cubeList a b c k v)
        (a + (i : Int), b + (j : Int), c + (l : Int)) v).length =
      eN k i + eN k j + eN k l := by
  have hx1 : has_voxel (cubeList a b c k v)
      (offsetPos (a + (i : Int), b + (j : Int), c + (l : Int)) (1, 0, 0)) =
      decide (i + 1 < k) := by
    rw [has_voxel_cubeList, decide_eq_decide]
    simp only [offsetPos]
    constructor <;> intro <;> omega
  have hx2 : has_voxel (cubeList a b c k v)
      (offsetPos (a + (i : Int), b + (j : Int), c + (l : Int)) (-1, 0, 0)) =
      decide (1 ≤ i) := by
    rw [has_voxel_cubeList, decide_eq_decide]
    simp only [offsetPos]
    constructor <;> intro <;> omega
  have hy1 : has_voxel (cubeList a b c k v)
      (offsetPos (a + (i : Int), b + (j : Int), c + (l : Int)) (0, 1, 0)) =
      decide (j + 1 < k) := by
    rw [has_voxel_cubeList, decide_eq_decide]
    simp only [offsetPos]
    constructor <;> intro <;> omega
  have hy2 : has_voxel (cubeList a b c k v)
      (offsetPos (a + (i : Int), b + (j : Int), c + (l : Int)) (0, -1, 0)) =
      decide (1 ≤ j) := by
    rw [has_voxel_cubeList, decide_eq_decide]
    simp only [offsetPos]
    constructor <;> intro <;> omega
  have hz1 : has_voxel (cubeList a b c k v)
      (offsetPos (a + (i : Int), b + (j : Int), c + (l : Int)) (0, 0, 1)) =
      decide (l + 1 < k) := by
    rw [has_voxel_cubeList, decide_eq_decide]
    simp only [offsetPos]
    constructor <;> intro <;> omega
  have hz2 : has_voxel (cubeList a b c k v)
      (offsetPos (a + (i : Int), b + (j : Int), c + (l : Int)) (0, 0, -1)) =
      decide (1 ≤ l) := by
    rw [has_voxel_cubeList, decide_eq_decide]
    simp only [offsetPos]
    constructor <;> intro <;> omega
  simp only [facesForCell, directions, List.filterMap_cons,
    List.filterMap_nil, hx1, hx2, hy1, hy2, hz1, hz2,
    decide_eq_true_eq, eN]
  clear hx1 hx2 hy1 hy2 hz1 hz2
  split_ifs <;> rfl

theorem sum_map_range (n : Nat) (f : Nat → Nat) :
    ((List.range n).map f).sum = ∑ t in Finset.range n, f t := by
  induction n with
  | zero => rfl
  | succ n ih =>
      rw [List.range_succ, List.map_append, List.sum_append,
        Finset.sum_range_succ, ih]
      simp

theorem sum_flatMap_nat {α : Type} (l : List α) (f : α → List Nat) :
    (l.flatMap f).sum = (l.map (fun x => (f x).sum)).sum := by
  induction l with
  | nil => rfl
  | cons a t ih => simp [List.flatMap_cons, ih]

theorem sum_map_cubeList (a b c : Int) (k : Nat) (v : Voxel)
    (F : Pos × Voxel → Nat) :
    ((cubeList a b c k v).map F).sum =
      ∑ i in Finset.range k, ∑ j in Finset.range k, ∑ l in Finset.range k,
        F ((a + (i : Int), b + (j : Int), c + (l : Int)), v) := by
  rw [cubeList, List.map_flatMap, sum_flatMap_nat, sum_map_range]
  refine Finset.sum_congr rfl (fun i _ => ?_)
  rw [List.map_flatMap, sum_flatMap_nat, sum_map_range]
  refine Finset.sum_congr rfl (fun j _ => ?_)
  rw [List.map_map, sum_map_range]
  rfl

theorem sum_eN (k : Nat) (hk : 1 ≤ k) :
    (∑ t in Finset.range k, eN k t) = 2 := by
  have h1 : ∀ t ∈ Finset.range k, eN k t =
      (if t = 0 then 1 else 0) + (if t = k - 1 then 1 else 0) := by
    intro t ht
    rw [Finset.mem_range] at ht
    unfold eN
    split_ifs <;> omega
  rw [Finset.sum_congr rfl h1, Finset.sum_add_distrib,
    Finset.sum_ite_eq' (Finset.range k) 0 (fun _ => 1),
    Finset.sum_ite_eq' (Finset.range k) (k - 1) (fun _ => 1),
    if_pos (Finset.mem_range.mpr (by omega)),
    if_pos (Finset.mem_range.mpr (by omega))]

theorem cube_faces_count (a b c : Int) (k : Nat) (v : Voxel) :
    (computeFaces (cubeList a b c k v)).length = 6 * k ^ 2 := by
  rcases Nat.eq_zero_or_pos k with hk | hk
  · subst hk
    rfl
  have hS := sum_eN k hk
  rw [computeFaces, length_flatMap_eq_sum, sum_map_cubeList]
  have hc : (∑ i in Finset.range k, ∑ j in Finset.range k,
        ∑ l in Finset.range k,
        (facesForCell (cubeList a b c k v)
          (a + (i : Int), b + (j : Int), c + (l : Int)) v).length) =
      ∑ i in Finset.range k, ∑ j in Finset.range k, ∑ l in Finset.range k,
        (eN k i + eN k j + eN k l) := by
    refine Finset.sum_congr rfl (fun i hi => ?_)
    refine Finset.sum_congr rfl (fun j hj => ?_)
    refine Finset.sum_congr rfl (fun l hl => ?_)
    rw [Finset.mem_range] at hi hj hl
    exact facesForCell_cube a b c k v i j l hi hj hl
  rw [hc]
  have h1 : ∀ i j : Nat,
      (∑ l in Finset.range k, (eN k i + eN k j + eN k l)) =
        k * (eN k i + eN k j) + 2 := by
    intro i j
    rw [Finset.sum_add_distrib, Finset.sum_const, Finset.card_range,
      smul_eq_mul, hS]
  have h2 : ∀ i : Nat,
      (∑ j in Finset.range k, (k * (eN k i + eN k j) + 2)) =
        k * k * eN k i + 2 * k + 2 * k := by
    intro i
    rw [Finset.sum_add_distrib, Finset.sum_const, Finset.card_range,
      smul_eq_mul]
    simp only [Nat.mul_add]
    rw [Finset.sum_add_distrib, Finset.sum_const, Finset.card_range,
      smul_eq_mul, ← Finset.mul_sum, hS]
    ring
  have h3 : (∑ i in Finset.range k,
        (k * k * eN k i + 2 * k + 2 * k)) =
      k * k * 2 + 2 * k * k + 2 * k * k := by
    simp only [Finset.sum_add_distrib, Finset.sum_const, Finset.card_range,
      smul_eq_mul, ← Finset.mul_sum, hS]
    ring
  calc (∑ i in Finset.range k, ∑ j in Finset.range k,
        ∑ l in Finset.range k, (eN k i + eN k j + eN k l))
      = ∑ i in Finset.range k, ∑ j in Finset.range k,
          (k * (eN k i + eN k j) + 2) := by
        refine Finset.sum_congr rfl (fun i _ => ?_)
        exact Finset.sum_congr rfl (fun j _ => h1 i j)
    _ = ∑ i in Finset.range k, (k * k * eN k i + 2 * k + 2 * k) :=
        Finset.sum_congr rfl (fun i _ => h2 i)
    _ = k * k * 2 + 2 * k * k + 2 * k * k := h3
    _ = 6 * k ^ 2 := by ring

/-- C5: `get_visible_faces` yields exactly 6 records for a single
occupied cell, exactly 10 for two axis-adjacent occupied cells (on any
of the three axes), and exactly `6·k²` for a filled k×k×k cube anchored
anywhere; faces whose neighbor lies outside the grid count as visible
since only dictionary occupancy is consulted. -/
theorem visible_face_counts :
    (∀ (gs : Int) (p : Pos) (v : Voxel),
      (Engine.mk gs [(p, v)] 0 [] none).get_visible_faces.2.length = 6) ∧
    (∀ (gs x y z : Int) (v1 v2 : Voxel),
      (Engine.mk gs [((x, y, z), v1), ((x + 1, y, z), v2)] 0 []
        none).get_visible_faces.2.length = 10 ∧
      (Engine.mk gs [((x, y, z), v1), ((x, y + 1, z), v2)] 0 []
        none).get_visible_faces.2.length = 10 ∧
      (Engine.mk gs [((x, y, z), v1), ((x, y, z + 1), v2)] 0 []
        none).get_visible_faces.2.length = 10) ∧
    (∀ (gs a b c : Int) (k : Nat) (v : Voxel),
      (Engine.mk gs (cubeList a b c k v) 0 []
        none).get_visible_faces.2.length = 6 * k ^ 2) := by
  refine ⟨?_, ?_, ?_⟩
  · intro gs p v
    obtain ⟨x, y, z⟩ := p
    simpa [Engine.get_visible_faces] using singleCell_faces x y z v
  · intro gs x y z v1 v2
    exact ⟨by simpa [Engine.get_visible_faces] using
        twoAdjacent_faces_x x y z v1 v2,
      by simpa [Engine.get_visible_faces] using
        twoAdjacent_faces_y x y z v1 v2,
      by simpa [Engine.get_visible_faces] using
        twoAdjacent_faces_z x y z v1 v2⟩
  · intro gs a b c k v
    simpa [Engine.get_visible_faces] using cube_faces_count a b c k v

/-- C7 counterexample: on the pinch-score sequence of the claim, the
sixth tick (score 0.2 < 0.3) already leaves RELEASE for HAND_PRESENT,
so the machine does not stay in RELEASE at tick 6 as claimed. -/
theorem pinch_trace_counterexample :
    runStates DetectorState.init
        ([0.2, 0.5, 0.75, 0.1, 0.95, 0.2, 0.05].map pinchOnly) ≠
      [.HAND_PRESENT, .PRE_PINCH, .PINCHED, .RELEASE, .RELEASE, .RELEASE,
       .HAND_PRESENT] := by
  have hA : ¬ ((0.4 : ℚ) < 0.2) := by norm_num
  have hB : (0.4 : ℚ) < 0.5 := by norm_num
  have hC : (0.7 : ℚ) < 0.75 := by norm_num
  have hD : (0.1 : ℚ) < 0.5 := by norm_num
  have hE : ¬ ((0.95 : ℚ) < 0.3) := by norm_num
  have hF : (0.2 : ℚ) < 0.3 := by norm_num
  have hG : ¬ ((0.4 : ℚ) < 0.05) := by norm_num
  have hZ : ¬ ((0.8 : ℚ) < 0) := by norm_num
  simp [runStates, detectStep, machineStep, pinchOnly,
    DetectorState.init, min_hold_frames, hA, hB, hC, hD, hE, hF, hG, hZ]

/-- C7 (amended): the pinch-score sequence
[0.2, 0.5, 0.75, 0.1, 0.95, 0.2, 0.05] traverses HAND_PRESENT,
PRE_PINCH, PINCHED, RELEASE, RELEASE (the 0.95 re-pinch is ignored),
HAND_PRESENT (0.2 < 0.3 completes the release), HAND_PRESENT. -/
theorem pinch_trace :
    runStates DetectorState.init
        ([0.2, 0.5, 0.75, 0.1, 0.95, 0.2, 0.05].map pinchOnly) =
      [.HAND_PRESENT, .PRE_PINCH, .PINCHED, .RELEASE, .RELEASE,
       .HAND_PRESENT, .HAND_PRESENT] := by
  have hA : ¬ ((0.4 : ℚ) < 0.2) := by norm_num
  have hB : (0.4 : ℚ) < 0.5 := by norm_num
  have hC : (0.7 : ℚ) < 0.75 := by norm_num
  have hD : (0.1 : ℚ) < 0.5 := by norm_num
  have hE : ¬ ((0.95 : ℚ) < 0.3) := by norm_num
  have hF : (0.2 : ℚ) < 0.3 := by norm_num
  have hG : ¬ ((0.4 : ℚ) < 0.05) := by norm_num
  have hZ : ¬ ((0.8 : ℚ) < 0) := by norm_num
  simp [runStates, detectStep, machineStep, pinchOnly,
    DetectorState.init, min_hold_frames, hA, hB, hC, hD, hE, hF, hG, hZ]

theorem machineStep_pinch (st : GState) (sc : Scores)
    (h : (machineStep st sc).2 = .PINCH) :
    (machineStep st sc).1 = .PINCHED := by
  unfold machineStep at h ⊢
  cases st <;> simp only at h ⊢ <;> split_ifs at h ⊢ <;> simp_all

theorem lastD_concat (l : List Gest) (g : Gest) :
    lastD (l ++ [g]) = g := by
  simp [lastD, List.getLast?_concat]

theorem trailRun_concat (l : List Gest) (g : Gest) :
    trailRun (l ++ [g]) = if g = lastD l then trailRun l + 1 else 1 := by
  unfold trailRun
  rw [lastD_concat, List.reverse_append]
  simp only [List.reverse_singleton, List.singleton_append,
    List.takeWhile_cons, decide_eq_true_eq]
  simp only [if_true, List.length_cons]
  by_cases hg : g = lastD l
  · rw [if_pos hg, hg]
  · rw [if_neg hg]
    cases hr : l.reverse with
    | nil => rfl
    | cons h t =>
        have hh : l.getLast? = some h := by
          rw [← List.head?_reverse, hr]
          rfl
        have hhl : h = lastD l := by
          simp [lastD, hh]
        rw [List.takeWhile_cons,
          decide_eq_false (by rw [hhl]; exact fun h2 => hg h2.symm)]
        rfl

theorem getD_append_length {α : Type} (l t : List α) (a d : α) :
    (l ++ a :: t).getD l.length d = a := by
  induction l with
  | nil => rfl
  | cons x xs ih => simpa using ih

theorem take_append_cons {α : Type} (l t : List α) (a : α) :
    (l ++ a :: t).take (l.length + 1) = l ++ [a] := by
  induction l with
  | nil => rfl
  | cons x xs ih => simpa using ih

theorem streak_at_boundary (ctx t : List Gest) (g : Gest) :
    streak (ctx ++ g :: t) ctx.length = trailRun (ctx ++ [g]) := by
  unfold streak trailRun
  rw [take_append_cons, getD_append_length, lastD_concat]

theorem runOutputs_spec_aux (scs : List Scores) :
    ∀ (ctx : List Gest) (st : GState) (d : DetectorState),
      d.state = st → d.last_gesture = lastD ctx →
      d.gesture_hold_frames = trailRun ctx →
      ∀ i, (runOutputs d scs).getD i .NONE =
        debounced (ctx ++ rawSeq st scs) (ctx.length + i) := by
  induction scs with
  | nil =>
      intro ctx st d h1 h2 h3 i
      have hout : (ctx ++ rawSeq st []).getD (ctx.length + i) .NONE =
          .NONE := by
        apply List.getD_eq_default
        simp [rawSeq]
      show Gest.NONE = debounced (ctx ++ rawSeq st []) (ctx.length + i)
      unfold debounced
      rw [hout]
      simp
  | cons sc rest ih =>
      intro ctx st d h1 h2 h3 i
      have hraw : rawSeq st (sc :: rest) =
          (machineStep st sc).2 :: rawSeq (machineStep st sc).1 rest := rfl
      cases i with
      | zero =>
          simp only [runOutputs, List.getD_cons_zero, hraw, Nat.add_zero]
          unfold debounced
          rw [getD_append_length, streak_at_boundary]
          simp only [detectStep, h1, h2, h3]
          rw [← trailRun_concat]
          by_cases hp : (machineStep st sc).2 = .PINCH
          · have hps := machineStep_pinch st sc hp
            rw [if_pos ⟨hp, hps⟩, if_pos hp]
          · rw [if_neg (fun hc => hp hc.1), if_neg hp]
            split_ifs <;> rfl
      | succ i2 =>
          simp only [runOutputs, List.getD_cons_succ, hraw]
          have hd1 : (detectStep d sc).1 =
              { state := (machineStep st sc).1,
                last_gesture := (machineStep st sc).2,
                gesture_hold_frames :=
                  trailRun (ctx ++ [(machineStep st sc).2]) } := by
            simp only [detectStep, h1, h2, h3]
            rw [← trailRun_concat]
            split_ifs <;> rfl
          rw [hd1]
          have h4 := ih (ctx ++ [(machineStep st sc).2])
            (machineStep st sc).1
            { state := (machineStep st sc).1,
              last_gesture := (machineStep st sc).2,
              gesture_hold_frames :=
                trailRun (ctx ++ [(machineStep st sc).2]) }
            rfl (lastD_concat ctx (machineStep st sc).2).symm rfl i2
          rw [h4, List.append_assoc, List.singleton_append,
            List.length_append, List.length_singleton]
          have harith : ctx.length + 1 + i2 = ctx.length + (i2 + 1) := by
            omega
          rw [harith]

/-- C8 counterexample: after the pinch scores [0.2, 0.5, 0.75] the
machine has just entered PINCHED (third tick), yet the raw label of
that tick is POINT (held only 1 tick), so the effective gesture is
NONE, not PINCH — PINCH is not returned on every tick in which the
state is PINCHED. -/
theorem pinch_immediate_counterexample :
    (runStates DetectorState.init
        ([0.2, 0.5, 0.75].map pinchOnly)).getD 2 .IDLE = .PINCHED ∧
    (runOutputs DetectorState.init
        ([0.2, 0.5, 0.75].map pinchOnly)).getD 2 .NONE ≠ .PINCH := by
  have hA : ¬ ((0.4 : ℚ) < 0.2) := by norm_num
  have hB : (0.4 : ℚ) < 0.5 := by norm_num
  have hC : (0.7 : ℚ) < 0.75 := by norm_num
  have hZ : ¬ ((0.8 : ℚ) < 0) := by norm_num
  constructor <;>
    simp [runStates, runOutputs, detectStep, machineStep, pinchOnly,
      DetectorState.init, min_hold_frames, hA, hB, hC, hZ]

/-- C8 (amended): over any present-hand run from the initial detector
state, the effective gesture at tick i is NONE while the raw label's
consecutive-run length at i is below 3, surfaces from the 3rd
consecutive tick onward, and PINCH bypasses the debounce exactly on
ticks whose raw label is PINCH (the ticks that both start and end in
PINCHED; the tick entering PINCHED emits raw POINT and is debounced
normally). -/
theorem debounce_characterization (scs : List Scores) (i : Nat) :
    (runOutputs DetectorState.init scs).getD i .NONE =
      debounced (rawSeq .IDLE scs) i := by
  have h := runOutputs_spec_aux scs [] .IDLE DetectorState.init rfl rfl rfl i
  simpa using h

/-- C9 counterexample: the code reports the marginal index finger as
extended although its tip is not above the MCP by more than the curl
threshold, so the claimed iff (threshold margin on both joints) fails. -/
theorem finger_extended_counterexample :
    is_finger_extended marginalHand .index = true ∧
    extendedSpecPredicate marginalHand .index = false := by
  constructor <;>
    norm_num [is_finger_extended, extendedSpecPredicate, marginalHand,
      fingerJoints, curl_threshold]

/-- C9 (amended): for every non-thumb finger and landmark frame, the
finger-extended predicate holds iff the tip's vertical coordinate is
above the PIP joint's by more than the curl threshold AND strictly
above the MCP joint's (no threshold margin on the MCP comparison). -/
theorem finger_extended_iff (lms : Nat → Landmark) (f : Finger) :
    is_finger_extended lms f = true ↔
      ((lms (fingerJoints f).2.2).y <
          (lms (fingerJoints f).2.1).y - curl_threshold ∧
       (lms (fingerJoints f).2.2).y < (lms (fingerJoints f).1).y) := by
  simp [is_finger_extended]

/-- The squared comparison used in `is_velocity_sane` is exactly the
source's `sqrt(distSq) / dt > MAX_SPEED` whenever `dt > 0`. -/
theorem speed_check_equiv (dsq dt : ℚ) (hdt : 0 < dt) :
    (Real.sqrt (dsq : ℝ) / (dt : ℝ) > (5 : ℝ)) ↔
      ((5 * dt) ^ 2 < dsq) := by
  have hdtR : (0 : ℝ) < (dt : ℝ) := by exact_mod_cast hdt
  rw [gt_iff_lt, lt_div_iff₀ hdtR,
    Real.lt_sqrt (mul_nonneg (by norm_num) hdtR.le)]
  constructor
  · intro h
    exact_mod_cast h
  · intro h
    exact_mod_cast h

/-- C10 (amended): the filter accepts and seeds on the first call;
afterwards it rejects (returning false, leaving stored state
unchanged) exactly when the elapsed time is positive and the wrist
displacement over it exceeds the maximum speed; zero or negative
elapsed time is accepted but leaves the stored frame and timestamp
unchanged; an accepting call with positive elapsed time updates the
stored frame and timestamp. -/
theorem velocity_sane_characterization (tr : TrackerState) (f : Frame)
    (t : Int) :
    (tr.last_sane_landmarks = none →
      is_velocity_sane tr f t =
        ({ last_sane_landmarks := some f, last_sane_timestamp := t },
         true)) ∧
    (∀ prev, tr.last_sane_landmarks = some prev →
      (((is_velocity_sane tr f t).2 = false ↔
        (0 < ((t - tr.last_sane_timestamp : Int) : ℚ) / 1000 ∧
         (MAX_SPEED * (((t - tr.last_sane_timestamp : Int) : ℚ) / 1000)) ^ 2
           < wristDistSq f prev)) ∧
      ((is_velocity_sane tr f t).2 = false →
        (is_velocity_sane tr f t).1 = tr) ∧
      (((t - tr.last_sane_timestamp : Int) : ℚ) / 1000 ≤ 0 →
        is_velocity_sane tr f t = (tr, true)) ∧
      (0 < ((t - tr.last_sane_timestamp : Int) : ℚ) / 1000 →
        (is_velocity_sane tr f t).2 = true →
        (is_velocity_sane tr f t).1 =
          { last_sane_landmarks := some f, last_sane_timestamp := t }))) := by
  constructor
  · intro h
    simp [is_velocity_sane, h]
  · intro prev h
    simp only [is_velocity_sane, h]
    by_cases hdt : ((t - tr.last_sane_timestamp : Int) : ℚ) / 1000 ≤ 0
    · rw [if_pos hdt]
      refine ⟨?_, ?_, ?_, ?_⟩
      · simp only [Bool.true_eq_false, false_iff]
        intro hc
        exact absurd hdt (not_le.mpr hc.1)
      · simp
      · intro
        rfl
      · intro hpos
        exact absurd hdt (not_le.mpr hpos)
    · rw [if_neg hdt]
      by_cases hfast : wristDistSq f prev >
          (MAX_SPEED * (((t - tr.last_sane_timestamp : Int) : ℚ) / 1000)) ^ 2
      · rw [if_pos hfast]
        refine ⟨?_, ?_, ?_, ?_⟩
        · simp only [true_iff]
          exact ⟨lt_of_not_le hdt, hfast⟩
        · intro
          rfl
        · intro hle
          exact absurd hle hdt
        · intro _ hc
          simp at hc
      · rw [if_neg hfast]
        refine ⟨?_, ?_, ?_, ?_⟩
        · simp only [Bool.true_eq_false, false_iff]
          intro hc
          exact hfast hc.2
        · simp
        · intro hle
          exact absurd hle hdt
        · intro _ _
          rfl

/-- C10 counterexample: a second call with an unchanged timestamp
(elapsed time zero) is accepted, yet the stored frame is NOT updated
to the accepted frame, contradicting "in every accepting case (after
the first) it updates the stored frame and timestamp". -/
theorem velocity_sane_counterexample :
    (is_velocity_sane
        { last_sane_landmarks := some [{ x := 0, y := 0, z := 0 }],
          last_sane_timestamp := 100 }
        [{ x := 1, y := 0, z := 0 }] 100).2 = true ∧
    (is_velocity_sane
        { last_sane_landmarks := some [{ x := 0, y := 0, z := 0 }],
          last_sane_timestamp := 100 }
        [{ x := 1, y := 0, z := 0 }] 100).1.last_sane_landmarks ≠
      some [{ x := 1, y := 0, z := 0 }] := by
  constructor <;> norm_num [is_velocity_sane]

/-- C10 witness: a fast jump (10 screen widths in one second) is
rejected and leaves the tracker state untouched. -/
theorem velocity_sane_characterization_witness :
    (is_velocity_sane
        { last_sane_landmarks := some [{ x := 0, y := 0, z := 0 }],
          last_sane_timestamp := 0 }
        [{ x := 10, y := 0, z := 0 }] 1000).2 = false ∧
    (is_velocity_sane
        { last_sane_landmarks := some [{ x := 0, y := 0, z := 0 }],
          last_sane_timestamp := 0 }
        [{ x := 10, y := 0, z := 0 }] 1000).1 =
      { last_sane_landmarks := some [{ x := 0, y := 0, z := 0 }],
        last_sane_timestamp := 0 } := by
  have h := velocity_sane_characterization
    { last_sane_landmarks := some [{ x := 0, y := 0, z := 0 }],
      last_sane_timestamp := 0 }
    [{ x := 10, y := 0, z := 0 }] 1000
  have h2 := h.2 [{ x := 0, y := 0, z := 0 }] rfl
  have hfalse := h2.1.mpr
    ⟨by norm_num,
     by norm_num [wristDistSq, MAX_SPEED, defaultLandmark]⟩
  exact ⟨hfalse, h2.2.1 hfalse⟩

end AirForge

